import Mathlib

/-!
Verification of the twtGUI feed parsing and rendering pipeline
(`src/utils/timeline.ts`), shallowly embedded over `List Char`
(one element per Unicode code point of the JavaScript string).

The embedded functions are `fetchTimeline`, `isImageLink`, `formatLinks`
and `formatTimeline`, together with models of the JavaScript primitives
they invoke: the regular expressions
`/^(.*?)\s\((.*?)\):\s([\s\S]+)/`, `/https?:\/\/[^\s]+/g` and
`/âž¤/g`-replacement, `String.prototype.trim`, `String.prototype.split`,
and the platform WHATWG `URL` constructor (simplified, see `parseURL`).
-/

/-- Characters matched by the JavaScript `\s` character class (also the
set removed by `String.prototype.trim`). -/
def isJsWs (c : Char) : Bool :=
  c = '\t' || c = '\n' || c = '\x0b' || c = '\x0c' || c = '\r' || c = ' ' ||
  c = '\u00a0' || c = '\u1680' || (0x2000 ≤ c.val && c.val ≤ 0x200a) ||
  c = '\u2028' || c = '\u2029' || c = '\u202f' || c = '\u205f' ||
  c = '\u3000' || c = '\ufeff'

/-- Characters matched by the JavaScript `.` (dot) in a regex without the
`s` flag: everything except the four line terminators. -/
def dotMatch (c : Char) : Bool :=
  !(c = '\n' || c = '\r' || c = '\u2028' || c = '\u2029')

/-- Model of `String.prototype.trim`: drop JavaScript whitespace from both
ends. -/
def trimChars (l : List Char) : List Char :=
  ((l.dropWhile isJsWs).reverse.dropWhile isJsWs).reverse

/-- Model of `timeline.replace(/âž¤/g, "➤")`: leftmost, non-overlapping
replacement of the mangled three-character sequence by the canonical
arrow glyph. -/
def replaceMangled : List Char → List Char
  | 'â' :: 'ž' :: '¤' :: rest => '➤' :: replaceMangled rest
  | c :: rest => c :: replaceMangled rest
  | [] => []

/-- Model of `String.prototype.split` with a one-character separator. -/
def splitOnChar (d : Char) : List Char → List (List Char)
  | [] => [[]]
  | c :: rest =>
    if c = d then [] :: splitOnChar d rest
    else
      match splitOnChar d rest with
      | [] => [[c]]
      | p :: ps => (c :: p) :: ps

/-! ### Model of the entry regex `/^(.*?)\s\((.*?)\):\s([\s\S]+)/`

`scanUser` walks the candidate start positions of the `\s\(` delimiter in
ascending order (the lazy `(.*?)` group), requiring every character it
absorbs into the user group to match `.`; at each candidate, `scanTime`
walks the candidate positions of the closing `\):\s` in ascending order
(the lazy second group), requiring `.`-matching characters, and accepts
only when at least one character remains for the greedy `([\s\S]+)`. -/

/-- If `l` begins with `\s\(`, return the remainder after the `(`. -/
def openMatch : List Char → Option (List Char)
  | w :: '(' :: r => if isJsWs w then some r else none
  | _ => none

/-- If `l` begins with `\):\s` and at least one character follows, return
that remaining message text. -/
def closeMatch : List Char → Option (List Char)
  | ')' :: ':' :: w :: r => if isJsWs w ∧ r ≠ [] then some r else none
  | _ => none

/-- Scan for the lazily matched second group (the time) and the message. -/
def scanTime (acc : List Char) : List Char → Option (List Char × List Char)
  | [] => none
  | c :: rest =>
    match closeMatch (c :: rest) with
    | some msg => some (acc.reverse, msg)
    | none => if dotMatch c then scanTime (c :: acc) rest else none

/-- Scan for the lazily matched first group (the user), then the rest. -/
def scanUser (acc : List Char) :
    List Char → Option (List Char × List Char × List Char)
  | [] => none
  | c :: rest =>
    match openMatch (c :: rest) with
    | some afterParen =>
      match scanTime [] afterParen with
      | some (time, msg) => some (acc.reverse, time, msg)
      | none => if dotMatch c then scanUser (c :: acc) rest else none
    | none => if dotMatch c then scanUser (c :: acc) rest else none

/-- Model of `entry.match(/^(.*?)\s\((.*?)\):\s([\s\S]+)/)`, returning the
three capture groups `(user, time, message)` on success. -/
def matchEntry (l : List Char) : Option (List Char × List Char × List Char) :=
  scanUser [] l

/-! ### Model of the platform WHATWG `URL` constructor

`isImageLink` calls `new URL(url).pathname` inside a `try`/`catch`.
`parseURL` models that constructor for the inputs this program can
produce — tokens of the link regex, which always begin with `http://` or
`https://` and contain no whitespace.  Simplifications (none of which can
change the image-extension suffix test performed on the result): no
percent-encoding of path code points, no `.`/`..` segment normalization,
no IPv6/IDNA host forms (a bracketed host is rejected rather than
validated). -/

structure URLRec where
  pathname : List Char
deriving DecidableEq

/-- Strip a leading `http://` or `https://` scheme, or fail. -/
def schemeSplit : List Char → Option (List Char)
  | 'h' :: 't' :: 't' :: 'p' :: 's' :: ':' :: '/' :: '/' :: rest => some rest
  | 'h' :: 't' :: 't' :: 'p' :: ':' :: '/' :: '/' :: rest => some rest
  | _ => none

/-- Characters that terminate the authority component. -/
def isAuthEnd (c : Char) : Bool :=
  c = '/' || c = '\\' || c = '?' || c = '#'

/-- Forbidden host code points: a host containing one of these makes the
constructor throw. -/
def forbiddenHostChar (c : Char) : Bool :=
  c = '\x00' || c = '\t' || c = '\n' || c = '\r' || c = ' ' || c = '#' ||
  c = '/' || c = ':' || c = '<' || c = '>' || c = '?' || c = '@' ||
  c = '[' || c = '\\' || c = ']' || c = '^' || c = '|' || c = '%'

/-- Numeric value of a digit string. -/
def digitsVal (l : List Char) : Nat :=
  l.foldl (fun n c => n * 10 + (c.toNat - 48)) 0

/-- The port section (everything after the first `:` of the host/port
part) must be empty or all digits with value at most 65535. -/
def portOK (p : List Char) : Bool :=
  p.all Char.isDigit && decide (digitsVal p ≤ 65535)

def parseURL (url : List Char) : Option URLRec :=
  match schemeSplit url with
  | none => none
  | some rest =>
    let rest := rest.dropWhile (fun c => c = '/' || c = '\\')
    let auth := rest.takeWhile (fun c => !(isAuthEnd c))
    let pathq := rest.dropWhile (fun c => !(isAuthEnd c))
    let hostport := (auth.reverse.takeWhile (fun c => c != '@')).reverse
    let host := hostport.takeWhile (fun c => c != ':')
    let portPart := hostport.dropWhile (fun c => c != ':')
    if host = [] then none
    else if host.any forbiddenHostChar then none
    else if !(portOK portPart.tail) then none
    else
      let path := (pathq.takeWhile (fun c => !(c = '?' || c = '#'))).map
        (fun c => if c = '\\' then '/' else c)
      some ⟨if path = [] then ['/'] else path⟩

/-- The fixed extension list of `isImageLink`, in source order. -/
def imageExtensions : List (List Char) :=
  [".png".data, ".jpg".data, ".jpeg".data, ".gif".data,
   ".webp".data, ".bmp".data, ".svg".data]

/-- `pathname.toLowerCase().endsWith(ext)` for some listed extension. -/
def hasImageExt (path : List Char) : Bool :=
  imageExtensions.any (fun ext => ext.isSuffixOf (path.map Char.toLower))

/-- Embedding of `isImageLink`: parse the URL and test the pathname
suffix; a failed parse is caught and answered with `false`. -/
def isImageLink (url : List Char) : Bool :=
  match parseURL url with
  | some r => hasImageExt r.pathname
  | none => false

/-! ### Model of the link regex `/https?:\/\/[^\s]+/g` and `formatLinks` -/

/-- A piece of the replaced message: literal text or a matched URL. -/
inductive Span where
  | text (s : List Char)
  | link (url : List Char)
deriving DecidableEq

/-- Try to match `https?:\/\/[^\s]+` at the head of `l`; on success return
the matched URL and the remaining input. -/
def matchUrlAt (l : List Char) : Option (List Char × List Char) :=
  match l with
  | 'h' :: 't' :: 't' :: 'p' :: 's' :: ':' :: '/' :: '/' :: rest =>
    let run := rest.takeWhile (fun c => !(isJsWs c))
    if run.isEmpty then none
    else some ("https://".data ++ run, rest.dropWhile (fun c => !(isJsWs c)))
  | 'h' :: 't' :: 't' :: 'p' :: ':' :: '/' :: '/' :: rest =>
    let run := rest.takeWhile (fun c => !(isJsWs c))
    if run.isEmpty then none
    else some ("http://".data ++ run, rest.dropWhile (fun c => !(isJsWs c)))
  | _ => none

/-- Left-to-right scan of `message.replace(urlRegex, ...)`: accumulate
literal text until a regex match, emit the match as a `link` span, and
resume after it.  `fuel` only forces structural recursion: it starts at
the length of the scanned text and every step strictly shrinks that text,
so the `0`-with-input-left case is unreachable. -/
def scanLinksGo (fuel : Nat) (acc : List Char) (l : List Char) : List Span :=
  match fuel, l with
  | _, [] => if acc.isEmpty then [] else [Span.text acc.reverse]
  | 0, l => [Span.text (acc.reverse ++ l)]
  | fuel + 1, c :: rest =>
    match matchUrlAt (c :: rest) with
    | some (url, rest2) =>
      (if acc.isEmpty then [] else [Span.text acc.reverse]) ++
        Span.link url :: scanLinksGo fuel [] rest2
    | none => scanLinksGo fuel (c :: acc) rest

def tokenizeLinks (m : List Char) : List Span := scanLinksGo m.length [] m

/-- The URLs matched by the link regex, in order. -/
def linksOf (spans : List Span) : List (List Char) :=
  spans.filterMap (fun sp => match sp with
    | Span.link u => some u
    | Span.text _ => none)

def linkMatches (m : List Char) : List (List Char) := linksOf (tokenizeLinks m)

/-- The URLs collected into the source `images` array: every matched link
that passes `isImageLink`, in match order. -/
def detectedImages (m : List Char) : List (List Char) :=
  (linkMatches m).filter isImageLink

/-- The `<a>` replacement text for a matched URL. -/
def anchorTag (url : List Char) : List Char :=
  "<a href=\"".data ++ url ++ "\" target=\"_blank\">".data ++ url ++ "</a>".data

/-- The `<img>` markup pushed for a detected image. -/
def imgTag (url : List Char) : List Char :=
  "<img class=\"mt-4 border border-green-200 shadow-glow block\" src=\"".data
    ++ url ++ "\" alt=\"image from ".data ++ url ++ "\">".data

def renderSpan : Span → List Char
  | Span.text s => s
  | Span.link url => anchorTag url

/-- Embedding of `formatLinks`: replace matched URLs by anchor tags, wrap
the whole replaced message in a `<p>` element, and append the image
markup for every matched link classified as an image. -/
def formatLinks (m : List Char) : List Char :=
  "<p>&ThickSpace;".data ++ ((tokenizeLinks m).map renderSpan).flatten
    ++ "</p>".data ++ ((detectedImages m).map imgTag).flatten

/-! ### `formatTimeline` -/

/-- The record built per parsed entry (interface `TimelineEntry`). -/
structure TimelineEntry where
  user : List Char
  time : List Char
  message : List Char
deriving DecidableEq

/-- One step of the source `.map`/`.filter` pass: match a split segment
against the entry regex; on success trim the user and time fields and
store the link-formatted, trimmed message; otherwise produce nothing. -/
def parseEntry (seg : List Char) : Option TimelineEntry :=
  match matchEntry seg with
  | some (user, time, message) =>
    some ⟨trimChars user, trimChars time, trimChars (formatLinks message)⟩
  | none => none

/-- The synthetic entry returned when no segment parses. -/
def placeholderEntry : TimelineEntry :=
  ⟨"error!".data, "".data,
   "no valid entries found. ig you haven\x27t posted anything".data⟩

/-- The segments examined by `formatTimeline`: normalize the mangled
arrow sequence, split on `➤`, and drop the leading split. -/
def splitEntries (timeline : List Char) : List (List Char) :=
  (splitOnChar '➤' (replaceMangled timeline)).drop 1

/-- Embedding of `formatTimeline`. -/
def formatTimeline (timeline : List Char) : List TimelineEntry :=
  let formattedEntries := (splitEntries timeline).filterMap parseEntry
  if 0 < formattedEntries.length then formattedEntries else [placeholderEntry]

/-- A feed document assembled from entry segments with the canonical
delimiter glyph, as the producing endpoint writes it. -/
def renderFeed (segs : List (List Char)) : List Char :=
  segs.foldr (fun s acc => '➤' :: s ++ acc) []

/-- The same feed document with every delimiter written as the mangled
encoding sequence instead. -/
def renderFeedMangled (segs : List (List Char)) : List Char :=
  segs.foldr (fun s acc => 'â' :: 'ž' :: '¤' :: s ++ acc) []

/-! ### `fetchTimeline`

The fetch is the single I/O point.  Its observable input is the outcome
of the `fetch` call: either a settled response (with its `ok` flag and
body text) or a thrown network error caught by the surrounding
`try`/`catch`; `console.error` logging is a diagnostic side effect with
no data flow and is not modelled. -/

structure FetchResponse where
  ok : Bool
  text : List Char
deriving DecidableEq

inductive FetchOutcome where
  | response (r : FetchResponse)
  | thrown
deriving DecidableEq

/-- Embedding of `fetchTimeline`: the string the caller receives for each
outcome of the underlying `fetch`. -/
def fetchTimeline : FetchOutcome → List Char
  | FetchOutcome.response r =>
    if r.ok then r.text else "Failed to fetch timeline.".data
  | FetchOutcome.thrown => "Failed to fetch timeline due to an error.".data

def spanChars : Span → List Char
  | Span.text s => s
  | Span.link url => url

/-! ### Helper lemmas -/

theorem closeMatch_cons_ne {c : Char} {r : List Char} (h : c ≠ ')') :
    closeMatch (c :: r) = none := by
  rw [closeMatch.eq_def]
  split
  · rename_i heq
    injection heq with h1 _
    exact absurd h1 h
  · rfl

theorem openMatch_cons_ne {c d : Char} {r : List Char} (h : d ≠ '(') :
    openMatch (c :: d :: r) = none := by
  rw [openMatch.eq_def]
  split
  · rename_i heq
    injection heq with _ h2
    injection h2 with h1 _
    exact absurd h1 h
  · rfl

theorem scanTime_boundary (t m : List Char) (acc : List Char)
    (ht1 : ')' ∉ t) (ht2 : ∀ c ∈ t, dotMatch c = true) (hm : m ≠ []) :
    scanTime acc (t ++ ')' :: ':' :: ' ' :: m) = some (acc.reverse ++ t, m) := by
  induction t generalizing acc with
  | nil =>
    show scanTime acc (')' :: ':' :: ' ' :: m) = some (acc.reverse ++ [], m)
    rw [scanTime]
    have hc : closeMatch (')' :: ':' :: ' ' :: m) = some m := by
      rw [closeMatch.eq_def]
      simp [hm, isJsWs]
    rw [hc]
    simp
  | cons c t ih =>
    rw [List.cons_append, scanTime]
    have hc : closeMatch (c :: (t ++ ')' :: ':' :: ' ' :: m)) = none :=
      closeMatch_cons_ne (by intro hc; exact ht1 (hc ▸ List.mem_cons_self c t))
    rw [hc]
    rw [if_pos (ht2 c (List.mem_cons_self c t))]
    rw [ih (c :: acc) (fun hmem => ht1 (List.mem_cons_of_mem c hmem))
        (fun d hd => ht2 d (List.mem_cons_of_mem c hd))]
    simp

theorem scanUser_boundary (u rest tm msg : List Char) (acc : List Char)
    (hu1 : '(' ∉ u) (hu2 : ∀ c ∈ u, dotMatch c = true)
    (hst : scanTime [] rest = some (tm, msg)) :
    scanUser acc (u ++ ' ' :: '(' :: rest) = some (acc.reverse ++ u, tm, msg) := by
  induction u generalizing acc with
  | nil =>
    show scanUser acc (' ' :: '(' :: rest) = _
    have ho : openMatch (' ' :: '(' :: rest) = some rest := by
      rw [openMatch.eq_def]
      simp [isJsWs]
    rw [scanUser, ho]
    dsimp only
    rw [hst]
    simp
  | cons c u ih =>
    rw [List.cons_append, scanUser]
    have ho : openMatch (c :: (u ++ ' ' :: '(' :: rest)) = none := by
      cases u with
      | nil => exact openMatch_cons_ne (by decide)
      | cons d u2 =>
        exact openMatch_cons_ne
          (fun hd => hu1 (hd ▸ List.mem_cons_of_mem c (List.mem_cons_self d u2)))
    rw [ho]
    rw [if_pos (hu2 c (List.mem_cons_self c u))]
    rw [ih (c :: acc) (fun hmem => hu1 (List.mem_cons_of_mem c hmem))
        (fun d hd => hu2 d (List.mem_cons_of_mem c hd))]
    simp

theorem matchEntry_shape (u t m : List Char)
    (hu1 : '(' ∉ u) (hu2 : ∀ c ∈ u, dotMatch c = true)
    (ht1 : ')' ∉ t) (ht2 : ∀ c ∈ t, dotMatch c = true) (hm : m ≠ []) :
    matchEntry (u ++ ' ' :: '(' :: (t ++ ')' :: ':' :: ' ' :: m)) = some (u, t, m) := by
  have hst : scanTime [] (t ++ ')' :: ':' :: ' ' :: m) = some (t, m) := by
    rw [scanTime_boundary t m [] ht1 ht2 hm]
    simp
  unfold matchEntry
  rw [scanUser_boundary u _ t m [] hu1 hu2 hst]
  simp

theorem formatLinks_single_text {m : List Char} (h : tokenizeLinks m = [Span.text m]) :
    formatLinks m = "<p>&ThickSpace;".data ++ m ++ "</p>".data := by
  unfold formatLinks detectedImages linkMatches
  rw [h]
  simp [linksOf, renderSpan]

theorem trimChars_wrap (m : List Char) :
    trimChars ("<p>&ThickSpace;".data ++ m ++ "</p>".data)
      = "<p>&ThickSpace;".data ++ m ++ "</p>".data := by
  have h1 : "<p>&ThickSpace;".data ++ m ++ "</p>".data
      = '<' :: ("p>&ThickSpace;".data ++ m ++ "</p".data ++ ['>']) := by
    simp
  rw [trimChars, h1, List.dropWhile_cons]
  rw [if_neg (by decide)]
  have h2 : ('<' :: ("p>&ThickSpace;".data ++ m ++ "</p".data ++ ['>'])).reverse
      = '>' :: ('<' :: ("p>&ThickSpace;".data ++ m ++ "</p".data)).reverse := by
    simp
  rw [h2, List.dropWhile_cons]
  rw [if_neg (by decide)]
  simp

theorem parseEntry_shape_aux (u t m : List Char)
    (hu1 : '(' ∉ u) (hu2 : ∀ c ∈ u, dotMatch c = true)
    (ht1 : ')' ∉ t) (ht2 : ∀ c ∈ t, dotMatch c = true) (hm : m ≠ []) :
    parseEntry (u ++ ' ' :: '(' :: (t ++ ')' :: ':' :: ' ' :: m))
      = some ⟨trimChars u, trimChars t, trimChars (formatLinks m)⟩ := by
  unfold parseEntry
  rw [matchEntry_shape u t m hu1 hu2 ht1 ht2 hm]

theorem parseEntry_noLink_aux (u t m : List Char)
    (hu1 : '(' ∉ u) (hu2 : ∀ c ∈ u, dotMatch c = true)
    (ht1 : ')' ∉ t) (ht2 : ∀ c ∈ t, dotMatch c = true)
    (hnl : tokenizeLinks m = [Span.text m]) :
    parseEntry (u ++ ' ' :: '(' :: (t ++ ')' :: ':' :: ' ' :: m))
      = some ⟨trimChars u, trimChars t,
          "<p>&ThickSpace;".data ++ m ++ "</p>".data⟩ := by
  have hm : m ≠ [] := by
    intro he
    rw [he] at hnl
    simp [tokenizeLinks, scanLinksGo] at hnl
  rw [parseEntry_shape_aux u t m hu1 hu2 ht1 ht2 hm]
  rw [formatLinks_single_text hnl, trimChars_wrap]

theorem replaceMangled_append_free {s : List Char} (h : 'â' ∉ s) (r : List Char) :
    replaceMangled (s ++ r) = s ++ replaceMangled r := by
  induction s with
  | nil => simp
  | cons c s ih =>
    have hc : c ≠ 'â' := fun he => h (he ▸ List.mem_cons_self c s)
    rw [List.cons_append, replaceMangled.eq_def]
    split
    · rename_i heq
      injection heq with h1 _
      exact absurd h1 hc
    · rename_i c2 rest2 heq
      injection heq with h1 h2
      subst h1
      rw [← h2, ih (fun hm => h (List.mem_cons_of_mem c hm))]
      simp
    · rename_i heq
      exact absurd heq (by simp)

theorem replaceMangled_renderFeed (segs : List (List Char))
    (h : ∀ s ∈ segs, 'â' ∉ s) :
    replaceMangled (renderFeed segs) = renderFeed segs := by
  induction segs with
  | nil => rfl
  | cons s segs ih =>
    show replaceMangled ('➤' :: (s ++ renderFeed segs)) = '➤' :: (s ++ renderFeed segs)
    rw [replaceMangled.eq_def]
    split
    · rename_i heq
      injection heq with h1 _
      exact absurd h1 (by decide)
    · rename_i c2 rest2 heq
      injection heq with h1 h2
      subst h1
      rw [← h2, replaceMangled_append_free (h s (List.mem_cons_self s segs))]
      rw [ih (fun s2 hs2 => h s2 (List.mem_cons_of_mem s hs2))]
    · rename_i heq
      exact absurd heq (by simp)

theorem replaceMangled_renderFeedMangled (segs : List (List Char))
    (h : ∀ s ∈ segs, 'â' ∉ s) :
    replaceMangled (renderFeedMangled segs) = renderFeed segs := by
  induction segs with
  | nil => rfl
  | cons s segs ih =>
    show replaceMangled ('â' :: 'ž' :: '¤' :: (s ++ renderFeedMangled segs))
        = '➤' :: (s ++ renderFeed segs)
    rw [replaceMangled]
    rw [replaceMangled_append_free (h s (List.mem_cons_self s segs))]
    rw [ih (fun s2 hs2 => h s2 (List.mem_cons_of_mem s hs2))]

theorem splitOnChar_append_free {d : Char} {s : List Char} (h : d ∉ s) {r p : List Char}
    {ps : List (List Char)} (hr : splitOnChar d r = p :: ps) :
    splitOnChar d (s ++ r) = (s ++ p) :: ps := by
  induction s with
  | nil => simpa using hr
  | cons c s ih =>
    have hc : c ≠ d := fun he => h (he ▸ List.mem_cons_self c s)
    rw [List.cons_append, splitOnChar, if_neg hc]
    rw [ih (fun hm => h (List.mem_cons_of_mem c hm))]
    simp

theorem splitOnChar_renderFeed (segs : List (List Char))
    (h : ∀ s ∈ segs, '➤' ∉ s) :
    splitOnChar '➤' (renderFeed segs) = [] :: segs := by
  induction segs with
  | nil => rfl
  | cons s segs ih =>
    show splitOnChar '➤' ('➤' :: (s ++ renderFeed segs)) = [] :: s :: segs
    rw [splitOnChar, if_pos rfl]
    rw [splitOnChar_append_free (h s (List.mem_cons_self s segs))
      (ih (fun s2 hs2 => h s2 (List.mem_cons_of_mem s hs2)))]
    simp

theorem splitEntries_renderFeed (segs : List (List Char))
    (h : ∀ s ∈ segs, '➤' ∉ s ∧ 'â' ∉ s) :
    splitEntries (renderFeed segs) = segs := by
  unfold splitEntries
  rw [replaceMangled_renderFeed segs (fun s hs => (h s hs).2)]
  rw [splitOnChar_renderFeed segs (fun s hs => (h s hs).1)]
  simp

theorem splitEntries_renderFeedMangled (segs : List (List Char))
    (h : ∀ s ∈ segs, '➤' ∉ s ∧ 'â' ∉ s) :
    splitEntries (renderFeedMangled segs) = segs := by
  unfold splitEntries
  rw [replaceMangled_renderFeedMangled segs (fun s hs => (h s hs).2)]
  rw [splitOnChar_renderFeed segs (fun s hs => (h s hs).1)]
  simp

theorem infix_flatten_of_mem {α : Type} {x : List α} {L : List (List α)}
    (h : x ∈ L) : x <:+: L.flatten := by
  induction L with
  | nil => cases h
  | cons y L ih =>
    rcases List.mem_cons.mp h with rfl | h2
    · exact ⟨[], L.flatten, by simp⟩
    · obtain ⟨s, t, he⟩ := ih h2
      exact ⟨y ++ s, t, by simp [← he]⟩

theorem splitOnChar_ne_nil (d : Char) (l : List Char) : splitOnChar d l ≠ [] := by
  induction l with
  | nil => simp [splitOnChar]
  | cons c rest ih =>
    by_cases hc : c = d
    · simp [splitOnChar, hc]
    · rw [splitOnChar, if_neg hc]
      cases hsp : splitOnChar d rest with
      | nil => simp
      | cons p ps => simp

theorem splitOnChar_not_mem {d : Char} (l : List Char) :
    ∀ p ∈ splitOnChar d l, d ∉ p := by
  induction l with
  | nil =>
    intro p hp
    simp [splitOnChar] at hp
    subst hp
    simp
  | cons c rest ih =>
    intro p hp
    by_cases hc : c = d
    · rw [splitOnChar, if_pos hc] at hp
      rcases List.mem_cons.mp hp with rfl | hp2
      · simp
      · exact ih p hp2
    · rw [splitOnChar, if_neg hc] at hp
      cases hsp : splitOnChar d rest with
      | nil => exact absurd hsp (splitOnChar_ne_nil d rest)
      | cons q qs =>
        rw [hsp] at hp
        rcases List.mem_cons.mp hp with rfl | hp2
        · intro hd
          rcases List.mem_cons.mp hd with hd | hd
          · exact hc hd.symm
          · exact ih q (hsp ▸ List.mem_cons_self q qs) hd
        · exact ih p (hsp ▸ List.mem_cons_of_mem q hp2)

theorem closeMatch_some {l msg : List Char} (h : closeMatch l = some msg) :
    ∃ w, l = ')' :: ':' :: w :: msg := by
  rw [closeMatch.eq_def] at h
  split at h
  · rename_i w r
    split at h
    · injection h with h2
      subst h2
      exact ⟨w, rfl⟩
    · exact absurd h (by simp)
  · exact absurd h (by simp)

theorem openMatch_some {l r : List Char} (h : openMatch l = some r) :
    ∃ w, l = w :: '(' :: r := by
  rw [openMatch.eq_def] at h
  split at h
  · rename_i w r2
    split at h
    · injection h with h2
      subst h2
      exact ⟨w, rfl⟩
    · exact absurd h (by simp)
  · exact absurd h (by simp)

theorem scanTime_subset {l : List Char} : ∀ {acc tm msg : List Char},
    scanTime acc l = some (tm, msg) →
      (∀ c ∈ tm, c ∈ acc ∨ c ∈ l) ∧ (∀ c ∈ msg, c ∈ l) := by
  induction l with
  | nil => intro acc tm msg h; simp [scanTime] at h
  | cons c rest ih =>
    intro acc tm msg h
    rw [scanTime] at h
    cases hcm : closeMatch (c :: rest) with
    | some m2 =>
      rw [hcm] at h
      dsimp only at h
      injection h with h2
      rw [Prod.mk.injEq] at h2
      obtain ⟨h3, h4⟩ := h2
      obtain ⟨w, hl⟩ := closeMatch_some hcm
      constructor
      · intro d hd
        left
        rw [← h3] at hd
        exact List.mem_reverse.mp hd
      · intro d hd
        rw [← h4] at hd
        rw [hl]
        exact List.mem_cons_of_mem _ (List.mem_cons_of_mem _ (List.mem_cons_of_mem _ hd))
    | none =>
      rw [hcm] at h
      dsimp only at h
      split at h
      · obtain ⟨h1, h2⟩ := ih h
        constructor
        · intro d hd
          rcases h1 d hd with hmem | hmem
          · rcases List.mem_cons.mp hmem with hd2 | hmem2
            · right; rw [hd2]; exact List.mem_cons_self c rest
            · left; exact hmem2
          · right; exact List.mem_cons_of_mem c hmem
        · intro d hd
          exact List.mem_cons_of_mem c (h2 d hd)
      · exact absurd h (by simp)

theorem scanUser_subset {l : List Char} : ∀ {acc u tm msg : List Char},
    scanUser acc l = some (u, tm, msg) →
      (∀ c ∈ u, c ∈ acc ∨ c ∈ l) ∧ (∀ c ∈ tm, c ∈ l) ∧ (∀ c ∈ msg, c ∈ l) := by
  induction l with
  | nil => intro acc u tm msg h; simp [scanUser] at h
  | cons c rest ih =>
    intro acc u tm msg h
    have consume : (if dotMatch c = true then scanUser (c :: acc) rest else none)
          = some (u, tm, msg) →
        (∀ d ∈ u, d ∈ acc ∨ d ∈ c :: rest) ∧
          (∀ d ∈ tm, d ∈ c :: rest) ∧ (∀ d ∈ msg, d ∈ c :: rest) := by
      intro h2
      split at h2
      · obtain ⟨h3, h4, h5⟩ := ih h2
        refine ⟨?_, ?_, ?_⟩
        · intro d hd
          rcases h3 d hd with hmem | hmem
          · rcases List.mem_cons.mp hmem with hd2 | hmem2
            · right; rw [hd2]; exact List.mem_cons_self c rest
            · left; exact hmem2
          · right; exact List.mem_cons_of_mem c hmem
        · intro d hd
          exact List.mem_cons_of_mem c (h4 d hd)
        · intro d hd
          exact List.mem_cons_of_mem c (h5 d hd)
      · exact absurd h2 (by simp)
    rw [scanUser] at h
    cases hom : openMatch (c :: rest) with
    | some afterParen =>
      rw [hom] at h
      dsimp only at h
      obtain ⟨w, hl⟩ := openMatch_some hom
      have hsub : ∀ d ∈ afterParen, d ∈ c :: rest := by
        intro d hd
        rw [hl]
        exact List.mem_cons_of_mem _ (List.mem_cons_of_mem _ hd)
      cases hst : scanTime [] afterParen with
      | some p =>
        obtain ⟨tm2, msg2⟩ := p
        rw [hst] at h
        dsimp only at h
        injection h with h2
        rw [Prod.mk.injEq] at h2
        obtain ⟨h3, h4⟩ := h2
        rw [Prod.mk.injEq] at h4
        obtain ⟨h4, h5⟩ := h4
        obtain ⟨hs1, hs2⟩ := scanTime_subset hst
        refine ⟨?_, ?_, ?_⟩
        · intro d hd
          left
          rw [← h3] at hd
          exact List.mem_reverse.mp hd
        · intro d hd
          rw [← h4] at hd
          rcases hs1 d hd with hmem | hmem
          · cases hmem
          · exact hsub d hmem
        · intro d hd
          rw [← h5] at hd
          exact hsub d (hs2 d hd)
      | none =>
        rw [hst] at h
        dsimp only at h
        exact consume h
    | none =>
      rw [hom] at h
      dsimp only at h
      exact consume h

theorem matchEntry_subset {l u tm msg : List Char}
    (h : matchEntry l = some (u, tm, msg)) :
    (∀ c ∈ u, c ∈ l) ∧ (∀ c ∈ tm, c ∈ l) ∧ (∀ c ∈ msg, c ∈ l) := by
  obtain ⟨h1, h2, h3⟩ := scanUser_subset h
  refine ⟨?_, h2, h3⟩
  intro d hd
  rcases h1 d hd with hmem | hmem
  · cases hmem
  · exact hmem

theorem trimChars_subset {l : List Char} : ∀ c ∈ trimChars l, c ∈ l := by
  intro c hc
  unfold trimChars at hc
  rw [List.mem_reverse] at hc
  have hc2 := (List.dropWhile_suffix isJsWs).subset hc
  rw [List.mem_reverse] at hc2
  exact (List.dropWhile_suffix isJsWs).subset hc2

theorem matchUrlAt_subset {l url rest2 : List Char}
    (h : matchUrlAt l = some (url, rest2)) :
    (∀ c ∈ url, c ∈ l ∨ c ∈ "https://".data) ∧ (∀ c ∈ rest2, c ∈ l) := by
  have hhttp : ∀ c ∈ ("http://".data : List Char), c ∈ ("https://".data : List Char) := by
    have he : ("http://".data : List Char) = ['h', 't', 't', 'p', ':', '/', '/'] := rfl
    rw [he]
    intro c hc
    fin_cases hc <;> decide
  unfold matchUrlAt at h
  split at h
  · dsimp only at h
    split at h
    · exact absurd h (by simp)
    · rw [Option.some.injEq, Prod.mk.injEq] at h
      obtain ⟨h1, h2⟩ := h
      constructor
      · intro c hc
        rw [← h1] at hc
        rcases List.mem_append.mp hc with hc | hc
        · exact Or.inr hc
        · refine Or.inl ?_
          have hx := List.takeWhile_prefix (fun c => !(isJsWs c)) |>.subset hc
          simp only [List.mem_cons]
          exact Or.inr (Or.inr (Or.inr (Or.inr (Or.inr (Or.inr (Or.inr (Or.inr hx)))))))
      · intro c hc
        rw [← h2] at hc
        have hx := (List.dropWhile_suffix _).subset hc
        simp only [List.mem_cons]
        exact Or.inr (Or.inr (Or.inr (Or.inr (Or.inr (Or.inr (Or.inr (Or.inr hx)))))))
  · dsimp only at h
    split at h
    · exact absurd h (by simp)
    · rw [Option.some.injEq, Prod.mk.injEq] at h
      obtain ⟨h1, h2⟩ := h
      constructor
      · intro c hc
        rw [← h1] at hc
        rcases List.mem_append.mp hc with hc | hc
        · exact Or.inr (hhttp c hc)
        · refine Or.inl ?_
          have hx := List.takeWhile_prefix (fun c => !(isJsWs c)) |>.subset hc
          simp only [List.mem_cons]
          exact Or.inr (Or.inr (Or.inr (Or.inr (Or.inr (Or.inr (Or.inr hx))))))
      · intro c hc
        rw [← h2] at hc
        have hx := (List.dropWhile_suffix _).subset hc
        simp only [List.mem_cons]
        exact Or.inr (Or.inr (Or.inr (Or.inr (Or.inr (Or.inr (Or.inr hx))))))
  · exact absurd h (by simp)

theorem scanLinksGo_subset : ∀ (fuel : Nat) (acc l : List Char),
    ∀ sp ∈ scanLinksGo fuel acc l, ∀ c ∈ spanChars sp,
      c ∈ acc ∨ c ∈ l ∨ c ∈ "https://".data := by
  have flush : ∀ (acc l : List Char) sp,
      sp ∈ (if acc.isEmpty then [] else [Span.text acc.reverse]) →
      ∀ c ∈ spanChars sp, c ∈ acc ∨ c ∈ l ∨ c ∈ "https://".data := by
    intro acc l sp hsp c hc
    split at hsp
    · cases hsp
    · rcases List.mem_cons.mp hsp with he | he
      · rw [he] at hc
        exact Or.inl (List.mem_reverse.mp hc)
      · cases he
  intro fuel
  induction fuel with
  | zero =>
    intro acc l sp hsp c hc
    cases l with
    | nil => exact flush acc [] sp hsp c hc
    | cons c2 rest =>
      have hsp2 : sp ∈ [Span.text (acc.reverse ++ (c2 :: rest))] := by
        rw [scanLinksGo] at hsp
        · exact hsp
        · simp
      rcases List.mem_cons.mp hsp2 with he | he
      · rw [he] at hc
        rcases List.mem_append.mp hc with hc | hc
        · exact Or.inl (List.mem_reverse.mp hc)
        · exact Or.inr (Or.inl hc)
      · cases he
  | succ fuel ih =>
    intro acc l sp hsp c hc
    cases l with
    | nil => exact flush acc [] sp hsp c hc
    | cons c2 rest =>
      rw [scanLinksGo] at hsp
      cases hm : matchUrlAt (c2 :: rest) with
      | some p =>
        obtain ⟨url, rest2⟩ := p
        rw [hm] at hsp
        dsimp only at hsp
        rcases List.mem_append.mp hsp with hflush | htail
        · exact flush acc (c2 :: rest) sp hflush c hc
        · rcases List.mem_cons.mp htail with he | htail2
          · rw [he] at hc
            rcases (matchUrlAt_subset hm).1 c hc with h2 | h2
            · exact Or.inr (Or.inl h2)
            · exact Or.inr (Or.inr h2)
          · rcases ih [] rest2 sp htail2 c hc with h2 | h2 | h2
            · cases h2
            · exact Or.inr (Or.inl ((matchUrlAt_subset hm).2 c h2))
            · exact Or.inr (Or.inr h2)
      | none =>
        rw [hm] at hsp
        dsimp only at hsp
        rcases ih (c2 :: acc) rest sp hsp c hc with h2 | h2 | h2
        · rcases List.mem_cons.mp h2 with he | h3
          · right; left; rw [he]; exact List.mem_cons_self c2 rest
          · exact Or.inl h3
        · exact Or.inr (Or.inl (List.mem_cons_of_mem c2 h2))
        · exact Or.inr (Or.inr h2)

theorem tokenizeLinks_subset {m : List Char} {sp : Span} (hsp : sp ∈ tokenizeLinks m) :
    ∀ c ∈ spanChars sp, c ∈ m ∨ c ∈ "https://".data := by
  intro c hc
  rcases scanLinksGo_subset m.length [] m sp hsp c hc with h | h | h
  · cases h
  · exact Or.inl h
  · exact Or.inr h

theorem linkMatches_subset {m url : List Char} (h : url ∈ linkMatches m) :
    ∀ c ∈ url, c ∈ m ∨ c ∈ "https://".data := by
  rw [linkMatches, linksOf, List.mem_filterMap] at h
  obtain ⟨sp, hsp, he⟩ := h
  cases sp with
  | text s => simp at he
  | link u =>
    have he2 : u = url := by simpa using he
    subst he2
    exact fun c hc => tokenizeLinks_subset hsp c hc

theorem formatLinks_no_arrow {m : List Char} (h : '➤' ∉ m) : '➤' ∉ formatLinks m := by
  intro hc
  have hhttps : '➤' ∉ ("https://".data : List Char) := by decide
  unfold formatLinks at hc
  rcases List.mem_append.mp hc with hc | himg
  · rcases List.mem_append.mp hc with hc | hsuf
    · rcases List.mem_append.mp hc with hpre | hbody
      · exact absurd hpre (by decide)
      · rw [List.mem_flatten] at hbody
        obtain ⟨x, hx, hcx⟩ := hbody
        rw [List.mem_map] at hx
        obtain ⟨sp, hsp, hrs⟩ := hx
        cases sp with
        | text s =>
          rw [← hrs] at hcx
          rcases tokenizeLinks_subset hsp '➤' hcx with h2 | h2
          · exact h h2
          · exact hhttps h2
        | link u =>
          rw [← hrs] at hcx
          unfold renderSpan anchorTag at hcx
          have hu : '➤' ∉ u := by
            intro h2
            rcases tokenizeLinks_subset hsp '➤' h2 with h3 | h3
            · exact h h3
            · exact hhttps h3
          rcases List.mem_append.mp hcx with hcx | hcx
          rotate_left
          · exact absurd hcx (by decide)
          rcases List.mem_append.mp hcx with hcx | hcx
          rotate_left
          · exact hu hcx
          rcases List.mem_append.mp hcx with hcx | hcx
          rotate_left
          · exact absurd hcx (by decide)
          rcases List.mem_append.mp hcx with hcx | hcx
          · exact absurd hcx (by decide)
          · exact hu hcx
    · exact absurd hsuf (by decide)
  · rw [List.mem_flatten] at himg
    obtain ⟨x, hx, hcx⟩ := himg
    rw [List.mem_map] at hx
    obtain ⟨url, hurl, hit⟩ := hx
    have hurl2 : url ∈ linkMatches m := (List.mem_filter.mp hurl).1
    have hu : '➤' ∉ url := by
      intro h2
      rcases linkMatches_subset hurl2 '➤' h2 with h3 | h3
      · exact h h3
      · exact hhttps h3
    rw [← hit] at hcx
    unfold imgTag at hcx
    rcases List.mem_append.mp hcx with hcx | hcx
    rotate_left
    · exact absurd hcx (by decide)
    rcases List.mem_append.mp hcx with hcx | hcx
    rotate_left
    · exact hu hcx
    rcases List.mem_append.mp hcx with hcx | hcx
    rotate_left
    · exact absurd hcx (by decide)
    rcases List.mem_append.mp hcx with hcx | hcx
    · exact absurd hcx (by decide)
    · exact hu hcx

theorem parseEntry_no_arrow {seg : List Char} {e : TimelineEntry}
    (hseg : '➤' ∉ seg) (h : parseEntry seg = some e) :
    '➤' ∉ e.user ∧ '➤' ∉ e.time ∧ '➤' ∉ e.message := by
  unfold parseEntry at h
  cases hme : matchEntry seg with
  | none =>
    rw [hme] at h
    exact absurd h (by simp)
  | some triple =>
    obtain ⟨u, tm, msg⟩ := triple
    rw [hme] at h
    dsimp only at h
    injection h with hei
    subst hei
    obtain ⟨h1, h2, h3⟩ := matchEntry_subset hme
    refine ⟨?_, ?_, ?_⟩
    · intro hc
      exact hseg (h1 '➤' (trimChars_subset '➤' hc))
    · intro hc
      exact hseg (h2 '➤' (trimChars_subset '➤' hc))
    · intro hc
      have hmsg : '➤' ∉ msg := fun h4 => hseg (h3 '➤' h4)
      exact formatLinks_no_arrow hmsg (trimChars_subset '➤' hc)

/-! ### Claim theorems -/

/-- C1 counterexample: a post line in the tab-separated shape
`<timestamp>\t<message>` is a supported shape per the claim, yet the
parser yields no entry for it — alone in a feed it produces only the
placeholder. -/
theorem tabShape_not_parsed :
    parseEntry "2022-01-01T12:00:00Z\thello, world".data = none ∧
    formatTimeline "➤2022-01-01T12:00:00Z\thello, world".data = [placeholderEntry] := by
  constructor
  · decide
  · decide

/-- Claim C1 (amended): only the loose shape `<user> (<timestamp>): <message>`
is supported.  For every segment of that shape (user free of `(` and of line
terminators, timestamp free of `)` and of line terminators, non-empty
message), the parser produces exactly one `TimelineEntry` whose `user` is the
trimmed field preceding the parenthesised group, whose `time` is the trimmed
parenthesised field, and whose `message` is the formatted text following the
group.  Tab-separated `<timestamp>\t<message>` lines are not accepted (see
the counterexample). -/
theorem parseEntry_parenShape (u t m : List Char)
    (hu1 : '(' ∉ u) (hu2 : ∀ c ∈ u, dotMatch c = true)
    (ht1 : ')' ∉ t) (ht2 : ∀ c ∈ t, dotMatch c = true) (hm : m ≠ []) :
    parseEntry (u ++ ' ' :: '(' :: (t ++ ')' :: ':' :: ' ' :: m))
      = some ⟨trimChars u, trimChars t, trimChars (formatLinks m)⟩ :=
  parseEntry_shape_aux u t m hu1 hu2 ht1 ht2 hm

theorem parseEntry_parenShape_witness :
    parseEntry ("bob".data ++ ' ' :: '(' :: ("2024".data ++ ')' :: ':' :: ' ' :: "hi".data))
      = some ⟨trimChars "bob".data, trimChars "2024".data,
          trimChars (formatLinks "hi".data)⟩ :=
  parseEntry_parenShape _ _ _ (by decide) (by decide) (by decide) (by decide) (by decide)

/-- C2 counterexample: the stored message for a parsed entry is the
HTML-formatted text, not the unmodified raw message body. -/
theorem storedMessage_not_raw :
    formatTimeline "➤bob (2024-05-01T10:00:00Z): hello world".data
      = [⟨"bob".data, "2024-05-01T10:00:00Z".data,
          "<p>&ThickSpace;hello world</p>".data⟩] ∧
    "<p>&ThickSpace;hello world</p>".data ≠ "hello world".data := by
  constructor
  · decide
  · decide

/-- Claim C2 (amended): the stored message is not the unmodified raw body: it
is the raw body wrapped in a `<p>&ThickSpace;...</p>` element (with URLs
turned into anchors).  For a message containing no link token, the body
appears verbatim inside the wrapper — newline-preserving, with no rewriting
of the text itself. -/
theorem parseEntry_message_wrapped (u t m : List Char)
    (hu1 : '(' ∉ u) (hu2 : ∀ c ∈ u, dotMatch c = true)
    (ht1 : ')' ∉ t) (ht2 : ∀ c ∈ t, dotMatch c = true)
    (hnl : tokenizeLinks m = [Span.text m]) :
    parseEntry (u ++ ' ' :: '(' :: (t ++ ')' :: ':' :: ' ' :: m))
      = some ⟨trimChars u, trimChars t,
          "<p>&ThickSpace;".data ++ m ++ "</p>".data⟩ :=
  parseEntry_noLink_aux u t m hu1 hu2 ht1 ht2 hnl

theorem parseEntry_message_wrapped_witness :
    parseEntry ("bob".data ++ ' ' :: '(' :: ("2024".data ++ ')' :: ':' :: ' ' ::
        "line one\nline two  ".data))
      = some ⟨trimChars "bob".data, trimChars "2024".data,
          "<p>&ThickSpace;".data ++ "line one\nline two  ".data ++ "</p>".data⟩ :=
  parseEntry_message_wrapped _ _ _ (by decide) (by decide) (by decide) (by decide) (by decide)

/-- C3 counterexample: a message beginning with `(#abc1234)` is parsed
with no reply-subject extraction — the marker remains verbatim inside the
formatted output (and the produced record has no subject field at all). -/
theorem replyMarker_not_stripped :
    formatTimeline "➤alice (2024-05-01): (#abc1234) thanks!".data
      = [⟨"alice".data, "2024-05-01".data,
          "<p>&ThickSpace;(#abc1234) thanks!</p>".data⟩] ∧
    "(#abc1234)".data <:+: "<p>&ThickSpace;(#abc1234) thanks!</p>".data := by
  constructor
  · decide
  · exact ⟨"<p>&ThickSpace;".data, " thanks!</p>".data, by decide⟩

/-- Claim C3 (amended): no reply-subject extraction happens.  A message
beginning with a `(#<token>)` marker parses to an entry (which has no
`replySubject` field) whose formatted message still contains the marker
verbatim; nothing is stripped from the text passed to the formatter. -/
theorem parseEntry_marker_kept (u t tok rest : List Char)
    (hu1 : '(' ∉ u) (hu2 : ∀ c ∈ u, dotMatch c = true)
    (ht1 : ')' ∉ t) (ht2 : ∀ c ∈ t, dotMatch c = true)
    (hnl : tokenizeLinks ('(' :: '#' :: (tok ++ ')' :: rest))
      = [Span.text ('(' :: '#' :: (tok ++ ')' :: rest))]) :
    parseEntry (u ++ ' ' :: '(' ::
        (t ++ ')' :: ':' :: ' ' :: ('(' :: '#' :: (tok ++ ')' :: rest))))
      = some ⟨trimChars u, trimChars t,
          "<p>&ThickSpace;".data ++ ('(' :: '#' :: (tok ++ ')' :: rest)) ++ "</p>".data⟩ ∧
    ('(' :: '#' :: (tok ++ [')'])) <:+:
      ("<p>&ThickSpace;".data ++ ('(' :: '#' :: (tok ++ ')' :: rest)) ++ "</p>".data) := by
  constructor
  · exact parseEntry_noLink_aux u t _ hu1 hu2 ht1 ht2 hnl
  · exact ⟨"<p>&ThickSpace;".data, rest ++ "</p>".data, by simp⟩

theorem parseEntry_marker_kept_witness :
    parseEntry ("alice".data ++ ' ' :: '(' ::
        ("2024-05-01".data ++ ')' :: ':' :: ' ' ::
          ('(' :: '#' :: ("abc1234".data ++ ')' :: " thanks!".data))))
      = some ⟨trimChars "alice".data, trimChars "2024-05-01".data,
          "<p>&ThickSpace;".data ++ ('(' :: '#' :: ("abc1234".data ++ ')' :: " thanks!".data))
            ++ "</p>".data⟩ ∧
    ('(' :: '#' :: ("abc1234".data ++ [')'])) <:+:
      ("<p>&ThickSpace;".data ++ ('(' :: '#' :: ("abc1234".data ++ ')' :: " thanks!".data))
        ++ "</p>".data) :=
  parseEntry_marker_kept _ _ _ _ (by decide) (by decide) (by decide) (by decide) (by decide)

/-- C4: for every input in which no segment matches the supported post
shape, `formatTimeline` returns exactly the single synthetic placeholder
entry; it never returns an empty sequence (and, being a total function,
never throws). -/
theorem formatTimeline_empty_placeholder (t : List Char) :
    formatTimeline t ≠ [] ∧
    ((∀ s ∈ splitEntries t, parseEntry s = none) →
      formatTimeline t = [placeholderEntry]) := by
  constructor
  · unfold formatTimeline
    dsimp only
    split
    · rename_i h
      intro hnil
      rw [hnil] at h
      simp at h
    · simp
  · intro h
    unfold formatTimeline
    dsimp only
    rw [List.filterMap_eq_nil_iff.mpr h]
    simp

theorem formatTimeline_empty_placeholder_witness :
    (∀ s ∈ splitEntries "# nick = john\n# follow = jane https://j.example/twtxt.txt".data,
      parseEntry s = none) ∧
    formatTimeline "# nick = john\n# follow = jane https://j.example/twtxt.txt".data
      = [placeholderEntry] :=
  ⟨by decide, (formatTimeline_empty_placeholder _).2 (by decide)⟩

/-- Claim C5: a segment that matches no supported post shape produces zero
entries and is skipped without aborting the parse: the timeline of a feed
containing the malformed segment equals the timeline of the same feed with
that segment removed — every other valid segment still produces its entry,
unchanged and in source order. -/
theorem formatTimeline_skips_malformed (pre post : List (List Char)) (bad : List Char)
    (h : ∀ s ∈ pre ++ bad :: post, '➤' ∉ s ∧ 'â' ∉ s)
    (hbad : parseEntry bad = none) :
    formatTimeline (renderFeed (pre ++ bad :: post))
      = formatTimeline (renderFeed (pre ++ post)) := by
  have h2 : ∀ s ∈ pre ++ post, '➤' ∉ s ∧ 'â' ∉ s := by
    intro s hs
    rcases List.mem_append.mp hs with hs | hs
    · exact h s (List.mem_append.mpr (Or.inl hs))
    · exact h s (List.mem_append.mpr (Or.inr (List.mem_cons_of_mem bad hs)))
  unfold formatTimeline
  rw [splitEntries_renderFeed _ h, splitEntries_renderFeed _ h2]
  have hfm : (pre ++ bad :: post).filterMap parseEntry
      = (pre ++ post).filterMap parseEntry := by
    simp [List.filterMap_append, List.filterMap_cons, hbad]
  rw [hfm]

theorem formatTimeline_skips_malformed_witness :
    formatTimeline (renderFeed ["a (1): x".data, "2021-01-01\tjunk".data, "b (2): y".data])
      = formatTimeline (renderFeed ["a (1): x".data, "b (2): y".data]) :=
  formatTimeline_skips_malformed ["a (1): x".data] ["b (2): y".data] _
    (by decide) (by decide)

/-- C6 counterexample: a failed fetch (non-ok status) returns the very
same value as a successful fetch of a feed whose content happens to equal
the sentinel text, so the failure result is not distinguishable from feed
content. -/
theorem fetchTimeline_error_collides :
    fetchTimeline (FetchOutcome.response ⟨false, "2024-01-01\thello".data⟩)
      = fetchTimeline (FetchOutcome.response ⟨true, "Failed to fetch timeline.".data⟩) := rfl

/-- C6 amended: on failure (non-ok response or thrown network error) the
caller receives one of two fixed, non-empty sentinel strings — never a
silently empty payload — delivered in the same string channel as feed
content (hence not a distinguishable error value); the embedding consumes
a single fetch outcome, performing no retry. -/
theorem fetchTimeline_failure_sentinel (o : FetchOutcome)
    (h : o = FetchOutcome.thrown ∨ ∃ r, o = FetchOutcome.response r ∧ r.ok = false) :
    (fetchTimeline o = "Failed to fetch timeline.".data ∨
     fetchTimeline o = "Failed to fetch timeline due to an error.".data) ∧
    fetchTimeline o ≠ [] := by
  rcases h with h | ⟨r, rfl, hok⟩
  · subst h
    exact ⟨Or.inr rfl, by decide⟩
  · have hr : fetchTimeline (FetchOutcome.response r)
        = "Failed to fetch timeline.".data := by
      simp [fetchTimeline, hok]
    rw [hr]
    exact ⟨Or.inl rfl, by decide⟩

theorem fetchTimeline_failure_sentinel_witness :
    (fetchTimeline FetchOutcome.thrown = "Failed to fetch timeline.".data ∨
     fetchTimeline FetchOutcome.thrown = "Failed to fetch timeline due to an error.".data) ∧
    fetchTimeline FetchOutcome.thrown ≠ [] :=
  fetchTimeline_failure_sentinel _ (Or.inl rfl)

/-- Claim C7: a detected link appears in the image list if and only if it
parses as a well-formed URL whose path component ends, case-insensitively,
with one of the extensions png, jpg, jpeg, gif, webp, bmp, svg; a detected
token that fails to parse as a URL is classified as not an image and is
still emitted as a plain link span; the formatter is total and never
fails. -/
theorem detectedImages_characterization (m url : List Char) (h : url ∈ linkMatches m) :
    (url ∈ detectedImages m ↔
      ∃ r, parseURL url = some r ∧ hasImageExt r.pathname = true) ∧
    (parseURL url = none → url ∉ detectedImages m) ∧
    anchorTag url <:+: formatLinks m := by
  refine ⟨?_, ?_, ?_⟩
  · rw [detectedImages, List.mem_filter]
    constructor
    · rintro ⟨-, himg⟩
      unfold isImageLink at himg
      cases hp : parseURL url with
      | none =>
        rw [hp] at himg
        exact absurd himg (by simp)
      | some r =>
        rw [hp] at himg
        exact ⟨r, rfl, himg⟩
    · rintro ⟨r, hp, hext⟩
      refine ⟨h, ?_⟩
      unfold isImageLink
      rw [hp]
      exact hext
  · intro hp hmem
    rw [detectedImages, List.mem_filter] at hmem
    unfold isImageLink at hmem
    rw [hp] at hmem
    exact absurd hmem.2 (by simp)
  · have hsp : Span.link url ∈ tokenizeLinks m := by
      rw [linkMatches, linksOf, List.mem_filterMap] at h
      obtain ⟨sp, hsp, he⟩ := h
      cases sp with
      | text s => simp at he
      | link u =>
        have he2 : u = url := by simpa using he
        exact he2 ▸ hsp
    have hmem2 : anchorTag url ∈ (tokenizeLinks m).map renderSpan :=
      List.mem_map.mpr ⟨Span.link url, hsp, rfl⟩
    obtain ⟨s1, s2, he⟩ := infix_flatten_of_mem hmem2
    refine ⟨"<p>&ThickSpace;".data ++ s1,
      s2 ++ "</p>".data ++ ((detectedImages m).map imgTag).flatten, ?_⟩
    rw [formatLinks, ← he]
    simp

theorem detectedImages_characterization_witness :
    ("https://a.com/cat.png".data ∈ linkMatches "see https://a.com/cat.png or http:///x y".data) ∧
    (("https://a.com/cat.png".data ∈ detectedImages "see https://a.com/cat.png or http:///x y".data ↔
      ∃ r, parseURL "https://a.com/cat.png".data = some r ∧ hasImageExt r.pathname = true) ∧
    (parseURL "https://a.com/cat.png".data = none →
      "https://a.com/cat.png".data ∉ detectedImages "see https://a.com/cat.png or http:///x y".data) ∧
    anchorTag "https://a.com/cat.png".data <:+:
      formatLinks "see https://a.com/cat.png or http:///x y".data) :=
  ⟨by decide, detectedImages_characterization _ _ (by decide)⟩

/-- C8: the Message Formatter is a pure function of its input value; two
calls on equal messages produce equal output (no hidden mutable state,
no I/O in the embedding). -/
theorem formatLinks_pure (m m2 : List Char) (h : m = m2) :
    formatLinks m = formatLinks m2 := by rw [h]

theorem formatLinks_pure_witness :
    formatLinks "check this https://example.com/cat.png out".data
      = formatLinks "check this https://example.com/cat.png out".data :=
  formatLinks_pure _ _ rfl

/-- Claim C9: the tokenizer normalizes the mangled encoding sequence
of the delimiter glyph back to the canonical `➤` before splitting, so a feed
whose delimiters are all written with the mangled sequence parses to the same
entries as the same feed written with the canonical glyph. -/
theorem formatTimeline_mangled_eq (segs : List (List Char))
    (h : ∀ s ∈ segs, '➤' ∉ s ∧ 'â' ∉ s) :
    formatTimeline (renderFeedMangled segs) = formatTimeline (renderFeed segs) := by
  unfold formatTimeline
  rw [splitEntries_renderFeedMangled segs h, splitEntries_renderFeed segs h]

theorem formatTimeline_mangled_eq_witness :
    formatTimeline (renderFeedMangled ["alice (2024): hi".data, "bob (2025): yo".data])
      = formatTimeline (renderFeed ["alice (2024): hi".data, "bob (2025): yo".data]) :=
  formatTimeline_mangled_eq _ (by decide)

/-- Claim C10: no field of any `TimelineEntry` returned by `formatTimeline`
contains the delimiter character `➤`: parsed fields come from segments of a
split on that character, and the synthetic placeholder contains none
either. -/
theorem formatTimeline_no_delimiter (t : List Char) (e : TimelineEntry)
    (h : e ∈ formatTimeline t) :
    '➤' ∉ e.user ∧ '➤' ∉ e.time ∧ '➤' ∉ e.message := by
  unfold formatTimeline at h
  dsimp only at h
  split at h
  · rw [List.mem_filterMap] at h
    obtain ⟨seg, hseg, hpe⟩ := h
    have hfree : '➤' ∉ seg := by
      have hseg2 : seg ∈ splitOnChar '➤' (replaceMangled t) :=
        List.drop_subset _ _ hseg
      exact splitOnChar_not_mem _ seg hseg2
    exact parseEntry_no_arrow hfree hpe
  · rcases List.mem_cons.mp h with he | he
    · rw [he]
      refine ⟨by decide, by decide, by decide⟩
    · cases he

theorem formatTimeline_no_delimiter_witness :
    '➤' ∉ (TimelineEntry.mk "a".data "b".data "<p>&ThickSpace;c</p>".data).user ∧
    '➤' ∉ (TimelineEntry.mk "a".data "b".data "<p>&ThickSpace;c</p>".data).time ∧
    '➤' ∉ (TimelineEntry.mk "a".data "b".data "<p>&ThickSpace;c</p>".data).message :=
  formatTimeline_no_delimiter "➤a (b): c".data _ (by decide)

